import Mathlib

/-!
Verification development for the strata multi-model database engine and its
LDBC graph benchmark collateral.

The storage engine (`stratadb`) is exercised by the repository only through
its black-box tests; the engine sources themselves are not part of the
repository snapshot.  Engine definitions below are therefore modelled from
the specification (each such definition carries a doc comment starting with
`Modelled from the spec:`).  The LDBC BFS code (`petgraph_bfs`,
`to_petgraph`) is embedded directly from `benches/graph/ldbc.rs`.
-/

namespace StrataSpec

/-! ### Association lists

Branch-scoped keyspaces, state cells, documents and collections are
string-keyed maps; the branch store is a `Nat`-keyed map.  We model every
map as an association list with these primitive operations. -/

/-- Look up the first binding of key `k`. -/
def alookup {κ α : Type} [DecidableEq κ] (k : κ) : List (κ × α) → Option α
  | [] => none
  | (a, b) :: t => if a = k then some b else alookup k t

/-- Remove every binding of key `k`. -/
def aerase {κ α : Type} [DecidableEq κ] (k : κ) : List (κ × α) → List (κ × α)
  | [] => []
  | (a, b) :: t => if a = k then aerase k t else (a, b) :: aerase k t

/-- Insert (or replace) the binding of key `k`. -/
def ainsert {κ α : Type} [DecidableEq κ] (k : κ) (v : α) (l : List (κ × α)) :
    List (κ × α) :=
  (k, v) :: aerase k l

/-! ### Value model

Modelled from the spec: the recursive tagged `Value` union with variants
Null, Bool, Int (signed 64-bit), Float (IEEE-754 64-bit), String, Bytes,
Array and Object.  Machine integers are modelled as `Int`; IEEE floats are
modelled as rationals (NaN, which the spec itself excludes from equality
reasoning, is outside the model); `Object` is a string-keyed association
list. -/
inductive Value : Type where
  | null : Value
  | bool (b : Bool) : Value
  | int (i : Int) : Value
  | float (q : ℚ) : Value
  | string (s : String) : Value
  | bytes (bs : List Nat) : Value
  | array (xs : List Value) : Value
  | object (fields : List (String × Value)) : Value

/-- Modelled from the spec: the error taxonomy of §7 (plus the op-level
`DimensionMismatch` name used by the vector contract in §4.7). -/
inductive Err : Type where
  | notFound : Err
  | alreadyExists : Err
  | invalidState : Err
  | invalidArgument : Err
  | dimensionMismatch : Err
  deriving DecidableEq

/-- Modelled from the spec: the distance metric of a vector collection. -/
inductive Metric : Type where
  | cosine : Metric
  | euclidean : Metric
  | dotProduct : Metric
  deriving DecidableEq

/-- Modelled from the spec: a state cell holds a value and a version counter
starting at 1 (wall-clock timestamps are outside the model). -/
structure Cell : Type where
  value : Value
  version : Nat

/-- Modelled from the spec: an immutable event record; its sequence number is
its 1-based position in the per-branch log. -/
structure EventRec : Type where
  etype : String
  payload : Value

/-- Modelled from the spec: a stored vector entry. -/
structure VecEntry : Type where
  embedding : List ℚ
  metadata : Option Value

/-- Modelled from the spec: a vector collection with fixed dimension and
metric.  The brute-force entry list is also the search index (the spec allows
any index whose observable search results match). -/
structure Collection : Type where
  dimension : Nat
  metric : Metric
  version : Nat
  entries : List (String × VecEntry)

/-- Modelled from the spec: the five per-branch primitive namespaces. -/
structure BranchState : Type where
  kv : List (String × Value)
  cells : List (String × Cell)
  events : List EventRec
  docs : List (String × Value)
  collections : List (String × Collection)

/-- The empty namespace a freshly created branch starts with. -/
def BranchState.empty : BranchState := ⟨[], [], [], [], []⟩

/-- Modelled from the spec: the engine state: named branches mapped to small
integer ids (ids are never reused thanks to `nextId`), the per-id branch
stores, and the current-branch selection. -/
structure DB : Type where
  branches : List (String × Nat)
  nextId : Nat
  store : List (Nat × BranchState)
  current : String

/-- Modelled from the spec: at creation the database holds exactly the
`default` branch and is positioned on it. -/
def DB.init : DB := ⟨[("default", 0)], 1, [(0, BranchState.empty)], "default"⟩

/-- Branch id of the current branch. -/
def currentId (db : DB) : Option Nat := alookup db.current db.branches

/-- Namespace of the current branch. -/
def currentState (db : DB) : Option BranchState :=
  (currentId db).bind fun bid => alookup bid db.store

/-- The observable namespace of an arbitrary branch name. -/
def branchView (db : DB) (name : String) : Option BranchState :=
  (alookup name db.branches).bind fun bid => alookup bid db.store

/-- Modelled from the spec: every primitive call is routed to the current
branch's namespace; a dangling current branch is an invalid state. -/
def withCurrent {α : Type} (db : DB)
    (f : BranchState → Except Err (BranchState × α)) : Except Err (DB × α) :=
  match currentId db with
  | none => .error .invalidState
  | some bid =>
    match alookup bid db.store with
    | none => .error .invalidState
    | some bs =>
      match f bs with
      | .error e => .error e
      | .ok (bs', a) => .ok ({ db with store := ainsert bid bs' db.store }, a)

/-! ### Branch lifecycle (modelled from the spec, §4.2) -/

/-- Modelled from the spec: `create_branch` fails with AlreadyExists on a
taken name, otherwise assigns a fresh id and an empty namespace. -/
def create_branch (db : DB) (name : String) : Except Err DB :=
  match alookup name db.branches with
  | some _ => .error .alreadyExists
  | none =>
    .ok { branches := (name, db.nextId) :: db.branches
          nextId := db.nextId + 1
          store := (db.nextId, BranchState.empty) :: db.store
          current := db.current }

/-- Modelled from the spec: `set_branch` fails with NotFound on an absent
name and otherwise only moves the process-scoped selection. -/
def set_branch (db : DB) (name : String) : Except Err DB :=
  match alookup name db.branches with
  | none => .error .notFound
  | some _ => .ok { db with current := name }

/-- Modelled from the spec: `delete_branch` refuses the current branch and
`default`, and purges both the name binding and the branch's data. -/
def delete_branch (db : DB) (name : String) : Except Err DB :=
  if name = db.current ∨ name = "default" then .error .invalidState
  else
    match alookup name db.branches with
    | none => .error .notFound
    | some bid =>
      .ok { db with branches := aerase name db.branches, store := aerase bid db.store }

/-! ### KV primitive (modelled from the spec, §4.3) -/

/-- Modelled from the spec: `kv_put` creates or overwrites a key. -/
def kv_put (db : DB) (k : String) (v : Value) : Except Err (DB × Unit) :=
  withCurrent db fun bs => .ok ({ bs with kv := ainsert k v bs.kv }, ())

/-- Modelled from the spec: `kv_get` distinguishes absence from error. -/
def kv_get (db : DB) (k : String) : Option Value :=
  (currentState db).bind fun bs => alookup k bs.kv

/-- Modelled from the spec: `kv_delete` returns whether the key existed;
deleting an absent key is a `false` success. -/
def kv_delete (db : DB) (k : String) : Except Err (DB × Bool) :=
  withCurrent db fun bs =>
    match alookup k bs.kv with
    | none => .ok (bs, false)
    | some _ => .ok ({ bs with kv := aerase k bs.kv }, true)

/-! ### State primitive (modelled from the spec, §4.4) -/

/-- Modelled from the spec: `state_set` bumps the cell version (1 on first
write). -/
def state_set (db : DB) (cell : String) (v : Value) : Except Err (DB × Unit) :=
  withCurrent db fun bs =>
    match alookup cell bs.cells with
    | none => .ok ({ bs with cells := ainsert cell ⟨v, 1⟩ bs.cells }, ())
    | some c => .ok ({ bs with cells := ainsert cell ⟨v, c.version + 1⟩ bs.cells }, ())

/-- Modelled from the spec: `state_get` reads the cell value. -/
def state_get (db : DB) (cell : String) : Option Value :=
  (currentState db).bind fun bs => (alookup cell bs.cells).map Cell.value

/-- Modelled from the spec, §4.4: `state_cas` succeeds iff the stored version
exactly matches `expected` (`none` matching exactly a nonexistent cell); a
failed check is the `Ok(None)` outcome and leaves the namespace untouched. -/
def state_cas (db : DB) (cell : String) (expected : Option Nat) (v : Value) :
    Except Err (DB × Option Nat) :=
  withCurrent db fun bs =>
    match alookup cell bs.cells, expected with
    | none, none => .ok ({ bs with cells := ainsert cell ⟨v, 1⟩ bs.cells }, some 1)
    | none, some _ => .ok (bs, none)
    | some _, none => .ok (bs, none)
    | some c, some ev =>
      if ev = c.version then
        .ok ({ bs with cells := ainsert cell ⟨v, c.version + 1⟩ bs.cells },
             some (c.version + 1))
      else .ok (bs, none)

/-- The cell (value and version) currently observable on the current branch. -/
def cellOf (db : DB) (cell : String) : Option Cell :=
  (currentState db).bind fun bs => alookup cell bs.cells

/-! ### Event primitive (modelled from the spec, §4.5) -/

/-- Modelled from the spec: `event_append` assigns the next sequence number
(1-based, monotonically increasing within the branch). -/
def event_append (db : DB) (etype : String) (payload : Value) :
    Except Err (DB × Nat) :=
  withCurrent db fun bs =>
    .ok ({ bs with events := bs.events ++ [⟨etype, payload⟩] }, bs.events.length + 1)

/-- Modelled from the spec: `event_len` counts the appended events on the
current branch. -/
def event_len (db : DB) : Nat :=
  ((currentState db).map fun bs => bs.events.length).getD 0

/-- Modelled from the spec: `event_read` fetches one event by sequence. -/
def event_read (db : DB) (seq : Nat) : Option EventRec :=
  (currentState db).bind fun bs =>
    if seq = 0 then none else bs.events.get? (seq - 1)

/-- Appends a whole list of events in order, collecting the returned
sequence numbers (the fold the event-invariant claim quantifies over). -/
def appendMany (db : DB) : List (String × Value) → Except Err (DB × List Nat)
  | [] => .ok (db, [])
  | (t, p) :: rest =>
    match event_append db t p with
    | .error e => .error e
    | .ok (db₁, s) =>
      match appendMany db₁ rest with
      | .error e => .error e
      | .ok (db₂, ss) => .ok (db₂, s :: ss)

/-! ### JSON primitive (modelled from the spec, §4.6) -/

/-- Modelled from the spec: one component of a JSONPath-lite expression:
an object field or a bracketed array index. -/
inductive PathComp : Type where
  | field (name : String) : PathComp
  | index (i : Nat) : PathComp
  deriving DecidableEq

/-- Parses one dot-separated segment such as `name`, `name[0]` or `[0][1]`
into its components. -/
def parseSegment (seg : String) : Option (List PathComp) :=
  match seg.splitOn "[" with
  | [] => none
  | name :: brs => do
    let idxs ← brs.mapM fun b =>
      if b.endsWith "]" then (b.dropRight 1).toNat? else none
    pure ((if name = "" then [] else [PathComp.field name]) ++
          idxs.map PathComp.index)

/-- Modelled from the spec: the JSONPath-lite dialect. `$` is the root;
subsequent components are dot-separated field names or bracketed integer
indices, with the leading `$.` or `$` optional for field paths. -/
def parsePath (p : String) : Option (List PathComp) :=
  if p = "$" then some []
  else
    let body :=
      if p.startsWith "$." then (p.drop 2)
      else if p.startsWith "$" then (p.drop 1)
      else p
    if body = "" then none
    else
      (body.splitOn ".").foldr
        (fun seg acc => do
          let cs ← parseSegment seg
          let rest ← acc
          pure (cs ++ rest))
        (some [])

/-- Modelled from the spec: path read, returning "absent" on any missing or
ill-typed step. -/
def getPath : List PathComp → Value → Option Value
  | [], v => some v
  | .field f :: rest, .object fs => (alookup f fs).bind (getPath rest)
  | .field _ :: _, _ => none
  | .index i :: rest, .array xs => (xs.get? i).bind (getPath rest)
  | .index _ :: _, _ => none

/-- Modelled from the spec: path write. Setting at the root replaces the
whole document; missing intermediate object fields are created; traversing a
non-Object (or a missing array slot) fails. -/
def setPath : List PathComp → Value → Value → Option Value
  | [], _, nv => some nv
  | .field f :: rest, .object fs, nv =>
    (setPath rest ((alookup f fs).getD (.object [])) nv).map
      fun c => .object (ainsert f c fs)
  | .field _ :: _, _, _ => none
  | .index i :: rest, .array xs, nv =>
    (xs.get? i).bind fun x =>
      (setPath rest x nv).map fun c => .array (xs.set i c)
  | .index _ :: _, _, _ => none

/-- Modelled from the spec: path delete below the root: removes the
addressed field or index and leaves surrounding structure intact. -/
def delPath : List PathComp → Value → Option Value
  | [], _ => none
  | [.field f], .object fs => some (.object (aerase f fs))
  | .field f :: rest, .object fs =>
    (alookup f fs).bind fun child =>
      (delPath rest child).map fun c => .object (ainsert f c fs)
  | .field _ :: _, _ => none
  | [.index i], .array xs =>
    if i < xs.length then some (.array (xs.eraseIdx i)) else none
  | .index i :: rest, .array xs =>
    (xs.get? i).bind fun x =>
      (delPath rest x).map fun c => .array (xs.set i c)
  | .index _ :: _, _ => none

/-- Modelled from the spec: `json_set`; at path `$` it replaces the entire
document, deeper paths walk/create objects, and an invalid traversal is an
InvalidArgument error. -/
def json_set (db : DB) (k : String) (path : String) (v : Value) :
    Except Err (DB × Unit) :=
  match parsePath path with
  | none => .error .invalidArgument
  | some comps =>
    withCurrent db fun bs =>
      match comps with
      | [] => .ok ({ bs with docs := ainsert k v bs.docs }, ())
      | _ =>
        match setPath comps ((alookup k bs.docs).getD (.object [])) v with
        | some d => .ok ({ bs with docs := ainsert k d bs.docs }, ())
        | none => .error .invalidArgument

/-- Modelled from the spec: `json_get`; absence (of the document or of the
path inside it) is `none`, not an error. -/
def json_get (db : DB) (k : String) (path : String) : Except Err (Option Value) :=
  match parsePath path with
  | none => .error .invalidArgument
  | some comps =>
    .ok ((currentState db).bind fun bs => (alookup k bs.docs).bind (getPath comps))

/-- Modelled from the spec: `json_delete`; deleting at `$` removes the
document, a deeper path removes that field. -/
def json_delete (db : DB) (k : String) (path : String) : Except Err (DB × Unit) :=
  match parsePath path with
  | none => .error .invalidArgument
  | some comps =>
    withCurrent db fun bs =>
      match comps with
      | [] => .ok ({ bs with docs := aerase k bs.docs }, ())
      | _ =>
        match alookup k bs.docs with
        | none => .ok (bs, ())
        | some doc =>
          match delPath comps doc with
          | some d => .ok ({ bs with docs := ainsert k d bs.docs }, ())
          | none => .error .invalidArgument

/-! ### Vector primitive (modelled from the spec, §4.7) -/

/-- Modelled from the spec: `vector_create_collection` fails with
AlreadyExists on a taken name in the current branch. -/
def vector_create_collection (db : DB) (name : String) (dim : Nat) (m : Metric) :
    Except Err (DB × Nat) :=
  withCurrent db fun bs =>
    match alookup name bs.collections with
    | some _ => .error .alreadyExists
    | none =>
      .ok ({ bs with collections := ainsert name ⟨dim, m, 1, []⟩ bs.collections }, 1)

/-- Modelled from the spec: `vector_delete_collection` returns whether the
collection existed; a nonexistent name is the `Ok(false)` success the spec
prescribes. -/
def vector_delete_collection (db : DB) (name : String) : Except Err (DB × Bool) :=
  withCurrent db fun bs =>
    match alookup name bs.collections with
    | none => .ok (bs, false)
    | some _ => .ok ({ bs with collections := aerase name bs.collections }, true)

/-- Modelled from the spec: the `CollectionInfo` rows of
`vector_list_collections`. -/
def vector_list_collections (db : DB) : List (String × Nat × Metric) :=
  ((currentState db).map fun bs =>
    bs.collections.map fun p => (p.1, p.2.dimension, p.2.metric)).getD []

/-- Modelled from the spec: `vector_upsert` validates the embedding length
against the collection's fixed dimension before any mutation and fails with
DimensionMismatch, otherwise creates or replaces the entry. -/
def vector_upsert (db : DB) (name key : String) (emb : List ℚ)
    (meta : Option Value) : Except Err (DB × Unit) :=
  withCurrent db fun bs =>
    match alookup name bs.collections with
    | none => .error .notFound
    | some coll =>
      if emb.length = coll.dimension then
        .ok ({ bs with collections :=
                (ainsert name { coll with entries := ainsert key ⟨emb, meta⟩ coll.entries }
                  bs.collections) }, ())
      else .error .dimensionMismatch

/-- Modelled from the spec: `vector_delete` returns whether the entry
existed. -/
def vector_delete (db : DB) (name key : String) : Except Err (DB × Bool) :=
  withCurrent db fun bs =>
    match alookup name bs.collections with
    | none => .error .notFound
    | some coll =>
      match alookup key coll.entries with
      | none => .ok (bs, false)
      | some _ =>
        .ok ({ bs with collections :=
                (ainsert name { coll with entries := aerase key coll.entries }
                  bs.collections) }, true)

/-- The collection observable under `name` on the current branch. -/
def collOf (db : DB) (name : String) : Option Collection :=
  (currentState db).bind fun bs => alookup name bs.collections

/-- Inner product of two rational vectors. -/
def dotQ (a b : List ℚ) : ℚ := (List.zipWith (· * ·) a b).sum

/-- Componentwise difference. -/
def subQ (a b : List ℚ) : List ℚ := List.zipWith (· - ·) a b

/-- Modelled from the spec, §4.7: the search score per metric — Cosine is
cosine similarity, DotProduct the raw inner product, Euclidean the negated
distance, so a higher score always means closer.  The IEEE-754 scores of the
engine are idealized as real numbers. -/
noncomputable def metricScore (m : Metric) (q e : List ℚ) : ℝ :=
  match m with
  | .dotProduct => (dotQ q e : ℚ)
  | .euclidean => -Real.sqrt ((dotQ (subQ q e) (subQ q e) : ℚ) : ℝ)
  | .cosine =>
    ((dotQ q e : ℚ) : ℝ) /
      (Real.sqrt ((dotQ q q : ℚ) : ℝ) * Real.sqrt ((dotQ e e : ℚ) : ℝ))

/-- Every entry of a collection paired with its score against a query. -/
noncomputable def scoredEntries (coll : Collection) (q : List ℚ) :
    List (String × ℝ) :=
  coll.entries.map fun p => (p.1, metricScore coll.metric q p.2.embedding)

/-- Modelled from the spec: `vector_search` scores every live entry, sorts by
score descending (most-similar first) and returns up to `k` rows. -/
noncomputable def vector_search (db : DB) (name : String) (q : List ℚ) (k : Nat) :
    Except Err (List (String × ℝ)) :=
  match collOf db name with
  | none => .error .notFound
  | some coll =>
    .ok ((List.insertionSort (fun a b => b.2 ≤ a.2) (scoredEntries coll q)).take k)

/-! ### The mutating primitive operations, as one type

Modelled from the spec: the command surface of §6 restricted to the
primitive mutations (branch lifecycle is separate; reads are pure functions
of the state and cannot mutate by construction). -/
inductive PrimOp : Type where
  | kvPut (k : String) (v : Value) : PrimOp
  | kvDelete (k : String) : PrimOp
  | stateSet (cell : String) (v : Value) : PrimOp
  | stateCas (cell : String) (expected : Option Nat) (v : Value) : PrimOp
  | eventAppend (etype : String) (payload : Value) : PrimOp
  | jsonSet (k path : String) (v : Value) : PrimOp
  | jsonDelete (k path : String) : PrimOp
  | vecCreate (name : String) (dim : Nat) (m : Metric) : PrimOp
  | vecDeleteColl (name : String) : PrimOp
  | vecUpsert (name key : String) (emb : List ℚ) (meta : Option Value) : PrimOp
  | vecDelete (name key : String) : PrimOp

/-- State reached after a primitive call: the new state on success, the old
state when the call reports an error. -/
def runDB {α : Type} (db : DB) (r : Except Err (DB × α)) : DB :=
  match r with
  | .ok (db', _) => db'
  | .error _ => db

/-- Executes one mutating primitive operation on the current branch. -/
def applyOp (db : DB) : PrimOp → DB
  | .kvPut k v => runDB db (kv_put db k v)
  | .kvDelete k => runDB db (kv_delete db k)
  | .stateSet cell v => runDB db (state_set db cell v)
  | .stateCas cell e v => runDB db (state_cas db cell e v)
  | .eventAppend t p => runDB db (event_append db t p)
  | .jsonSet k path v => runDB db (json_set db k path v)
  | .jsonDelete k path => runDB db (json_delete db k path)
  | .vecCreate name dim m => runDB db (vector_create_collection db name dim m)
  | .vecDeleteColl name => runDB db (vector_delete_collection db name)
  | .vecUpsert name key emb meta => runDB db (vector_upsert db name key emb meta)
  | .vecDelete name key => runDB db (vector_delete db name key)

/-- Modelled from the spec: branch ids are assigned at creation and never
reused, so distinct branch entries always carry distinct ids. -/
def WF (db : DB) : Prop := (db.branches.map Prod.snd).Nodup

instance : DecidablePred WF := fun db =>
  inferInstanceAs (Decidable ((db.branches.map Prod.snd).Nodup))

/-! ### Graph model, from `benches/graph/ldbc.rs`

`petgraph::graph::UnGraph<(), ()>` as built by `to_petgraph`: nodes are the
indices `0, …, n-1` in insertion order and edges are an unordered pair list
(parallel edges permitted).  `neighbors` returns the nodes adjacent through
any edge in either direction, as petgraph does for undirected graphs. -/
structure LGraph : Type where
  n : Nat
  edges : List (Nat × Nat)

/-- Neighbors of `v`: the far endpoint of every incident edge. -/
def LGraph.neighbors (g : LGraph) (v : Nat) : List Nat :=
  ((g.edges.filter fun e => e.1 = v).map Prod.snd) ++
    ((g.edges.filter fun e => e.2 = v).map Prod.fst)

/-- One neighbor visit of the inner `for` loop of `petgraph_bfs`: an
undiscovered neighbor is assigned depth `d + 1` and pushed to the back of
the queue. -/
def bfsStep (d : Nat) (st : List Nat × List (Nat × Nat)) (nb : Nat) :
    List Nat × List (Nat × Nat) :=
  if (alookup nb st.2).isSome then st else (st.1 ++ [nb], (nb, d + 1) :: st.2)

/-- The `while let Some(node) = queue.pop_front()` loop of `petgraph_bfs`,
with fuel standing in for the termination argument (the fuel supplied by
`petgraph_bfs` is proven sufficient in `bfsAux_inv`). -/
def bfsAux (g : LGraph) : Nat → List Nat → List (Nat × Nat) → List (Nat × Nat)
  | 0, _, depths => depths
  | _ + 1, [], depths => depths
  | fuel + 1, node :: rest, depths =>
    let d := (alookup node depths).getD 0
    let st := (g.neighbors node).foldl (bfsStep d) (rest, depths)
    bfsAux g fuel st.1 st.2

/-- BFS from `benches/graph/ldbc.rs`: manual `VecDeque`-based traversal
returning a map from node index to BFS depth (0 for the source). -/
def petgraph_bfs (g : LGraph) (source : Nat) : List (Nat × Nat) :=
  bfsAux g (2 * g.n + 1) [source] [(source, 0)]

/-- An LDBC Graphalytics dataset: vertex ids and directed edge pairs, from
`benches/graph/ldbc.rs` (`LdbcDataset`). -/
structure LdbcData : Type where
  vertices : List Nat
  edges : List (Nat × Nat)

/-- Position of an LDBC vertex id in the vertex list — the `id_map` built by
`to_petgraph`. -/
def idIndex (vs : List Nat) (x : Nat) : Option Nat := vs.findIdx? fun y => y = x

/-- The `to_petgraph` conversion of `benches/graph/ldbc.rs`: one petgraph
node per vertex in insertion order, one undirected edge per `.e` line whose
endpoints both exist. -/
def to_petgraph (ds : LdbcData) : LGraph :=
  { n := ds.vertices.length
    edges := ds.edges.filterMap fun e =>
      match idIndex ds.vertices e.1, idIndex ds.vertices e.2 with
      | some i, some j => some (i, j)
      | _, _ => none }

/-- Modelled from the spec: the canonical 10-vertex, 17-edge directed
example graph (`data/graph/example-directed`).  The data fixture itself is
not part of the source snapshot; the edge list below is chosen to realize
the BFS depths the spec states for it ({0, 1, 1, 2, 3, 3, 4, 4, 5, 5} for
vertices 1..10 from source 1 under undirected traversal). -/
def exampleDataset : LdbcData :=
  { vertices := [1, 2, 3, 4, 5, 6, 7, 8, 9, 10]
    edges := [(1, 2), (1, 3), (2, 3), (3, 1), (2, 4), (3, 4), (4, 5), (4, 6),
              (5, 6), (6, 4), (5, 7), (6, 8), (7, 8), (7, 9), (8, 10), (10, 8),
              (9, 10)] }

/-! ### Graph specification predicates -/

/-- Two nodes are adjacent when some edge joins them in either direction. -/
def adjP (g : LGraph) (u v : Nat) : Prop := (u, v) ∈ g.edges ∨ (v, u) ∈ g.edges

/-- There is a walk of length `m` from the source `s` to `v`. -/
inductive ReachN (g : LGraph) (s : Nat) : Nat → Nat → Prop where
  | refl : ReachN g s s 0
  | step {u v m} : ReachN g s u m → adjP g u v → ReachN g s v (m + 1)

/-- `d` is the length of a shortest path from `s` to `v`. -/
def IsBfsDepth (g : LGraph) (s v d : Nat) : Prop :=
  ReachN g s v d ∧ ∀ m, ReachN g s v m → d ≤ m

/-- The loop invariant of `petgraph_bfs`: recorded depths are exact shortest
distances, queued nodes are recorded, dequeued nodes are fully expanded, the
queue spans at most two consecutive depth levels, and every unrecorded node
is farther away than the queue head. -/
structure BfsInv (g : LGraph) (s : Nat) (q : List Nat) (dep : List (Nat × Nat)) :
    Prop where
  keys_lt : ∀ p ∈ dep, p.1 < g.n
  keys_nodup : (dep.map Prod.fst).Nodup
  src_mem : alookup s dep = some 0
  depths_exact : ∀ p ∈ dep, IsBfsDepth g s p.1 p.2
  q_recorded : ∀ v ∈ q, ∃ d, alookup v dep = some d
  expanded : ∀ p ∈ dep, p.1 ∈ q ∨ ∀ w, adjP g p.1 w → ∃ d, alookup w dep = some d
  levels : ∃ lo A B, q = A ++ B ∧ (∀ v ∈ A, alookup v dep = some lo) ∧
    ∀ v ∈ B, alookup v dep = some (lo + 1)
  frontier : ∀ w, alookup w dep = none → ∀ m, ReachN g s w m →
    ∃ v₀ d₀, q.head? = some v₀ ∧ alookup v₀ dep = some d₀ ∧ d₀ < m

/-! ### Concrete fixtures used by witnesses -/

/-- A two-dimensional cosine collection holding one entry. -/
def collW : Collection := ⟨2, .cosine, 1, [("v1", ⟨[1, 0], none⟩)]⟩

/-- A populated default-branch namespace for concrete runs. -/
def bsW : BranchState :=
  { kv := [("k", .int 1)]
    cells := [("c", ⟨.int 0, 1⟩)]
    events := [⟨"t", .null⟩]
    docs := [("d", .object [])]
    collections := [("col", collW)] }

/-- A two-branch database positioned on `default`. -/
def dbW : DB :=
  { branches := [("default", 0), ("other", 1)]
    nextId := 2
    store := [(0, bsW), (1, BranchState.empty)]
    current := "default" }

/-- A two-node, one-edge undirected graph. -/
def gW : LGraph := ⟨2, [(0, 1)]⟩

/-! ### Association list lemmas -/

theorem alookup_aerase_ne {κ α : Type} [DecidableEq κ] (k k' : κ) (l : List (κ × α))
    (h : k' ≠ k) : alookup k' (aerase k l) = alookup k' l := by
  induction l with
  | nil => rfl
  | cons p t ih =>
    obtain ⟨a, b⟩ := p
    by_cases hak : a = k
    · subst hak
      have hk : ¬ (a = k') := fun hh => h hh.symm
      simp [aerase, alookup, hk, ih]
    · by_cases hak' : a = k'
      · subst hak'
        simp [aerase, alookup, hak]
      · simp [aerase, alookup, hak, hak', ih]

theorem alookup_aerase_self {κ α : Type} [DecidableEq κ] (k : κ) (l : List (κ × α)) :
    alookup k (aerase k l) = none := by
  induction l with
  | nil => rfl
  | cons p t ih =>
    obtain ⟨a, b⟩ := p
    by_cases hak : a = k
    · simp [aerase, hak, ih]
    · simp [aerase, alookup, hak, ih]

@[simp] theorem alookup_ainsert_self {κ α : Type} [DecidableEq κ] (k : κ) (v : α)
    (l : List (κ × α)) : alookup k (ainsert k v l) = some v := by
  simp [ainsert, alookup]

theorem alookup_ainsert_ne {κ α : Type} [DecidableEq κ] (k k' : κ) (v : α)
    (l : List (κ × α)) (h : k' ≠ k) :
    alookup k' (ainsert k v l) = alookup k' l := by
  have hk : ¬ (k = k') := fun hh => h hh.symm
  simp [ainsert, alookup, hk, alookup_aerase_ne _ _ _ h]

theorem mem_of_alookup {κ α : Type} [DecidableEq κ] {k : κ} {v : α}
    {l : List (κ × α)} (h : alookup k l = some v) : (k, v) ∈ l := by
  induction l with
  | nil => simp [alookup] at h
  | cons p t ih =>
    obtain ⟨a, b⟩ := p
    by_cases hak : a = k
    · subst hak
      simp [alookup] at h
      simp [h]
    · simp [alookup, hak] at h
      exact List.mem_cons_of_mem _ (ih h)

theorem alookup_append {κ α : Type} [DecidableEq κ] (k : κ) (l₁ l₂ : List (κ × α)) :
    alookup k (l₁ ++ l₂) =
      match alookup k l₁ with
      | some v => some v
      | none => alookup k l₂ := by
  induction l₁ with
  | nil => simp [alookup]
  | cons p t ih =>
    obtain ⟨a, b⟩ := p
    by_cases hak : a = k
    · simp [alookup, hak]
    · simp [alookup, hak, ih]

theorem alookup_eq_none_of_not_mem {κ α : Type} [DecidableEq κ] {k : κ}
    {l : List (κ × α)} (h : ∀ v, (k, v) ∉ l) : alookup k l = none := by
  induction l with
  | nil => rfl
  | cons p t ih =>
    obtain ⟨a, b⟩ := p
    by_cases hak : a = k
    · subst hak
      exact absurd (List.mem_cons_self _ _) (h b)
    · simp [alookup, hak]
      exact ih fun v hv => h v (List.mem_cons_of_mem _ hv)

/-! ### Engine lemmas -/

theorem withCurrent_eq {α : Type} (db : DB)
    (f : BranchState → Except Err (BranchState × α)) {bid : Nat} {bs : BranchState}
    (h1 : currentId db = some bid) (h2 : alookup bid db.store = some bs) :
    withCurrent db f =
      match f bs with
      | .error e => .error e
      | .ok (bs', a) => .ok ({ db with store := ainsert bid bs' db.store }, a) := by
  simp [withCurrent, h1, h2]

theorem runDB_withCurrent {α : Type} (db : DB)
    (f : BranchState → Except Err (BranchState × α)) :
    runDB db (withCurrent db f) = db ∨
      ∃ bid bs', currentId db = some bid ∧
        runDB db (withCurrent db f) = { db with store := ainsert bid bs' db.store } := by
  rcases h1 : currentId db with _ | bid
  · left
    simp [withCurrent, runDB, h1]
  · rcases h2 : alookup bid db.store with _ | bs
    · left
      simp [withCurrent, runDB, h1, h2]
    · rcases hf : f bs with e | ⟨bs', a⟩
      · left
        simp [withCurrent, runDB, h1, h2, hf]
      · right
        exact ⟨bid, bs', rfl, by simp [withCurrent, runDB, h1, h2, hf]⟩

theorem applyOp_shape (db : DB) (op : PrimOp) :
    applyOp db op = db ∨
      ∃ bid bs', currentId db = some bid ∧
        applyOp db op = { db with store := ainsert bid bs' db.store } := by
  cases op with
  | kvPut k v => exact runDB_withCurrent db _
  | kvDelete k => exact runDB_withCurrent db _
  | stateSet cell v => exact runDB_withCurrent db _
  | stateCas cell e v => exact runDB_withCurrent db _
  | eventAppend t p => exact runDB_withCurrent db _
  | jsonSet k path v =>
    simp only [applyOp, json_set]
    cases parsePath path with
    | none => left; rfl
    | some comps => exact runDB_withCurrent db _
  | jsonDelete k path =>
    simp only [applyOp, json_delete]
    cases parsePath path with
    | none => left; rfl
    | some comps => exact runDB_withCurrent db _
  | vecCreate name dim m => exact runDB_withCurrent db _
  | vecDeleteColl name => exact runDB_withCurrent db _
  | vecUpsert name key emb meta => exact runDB_withCurrent db _
  | vecDelete name key => exact runDB_withCurrent db _

theorem snd_inj_of_nodup {l : List (String × Nat)} (h : (l.map Prod.snd).Nodup)
    {c₁ c₂ : String} {i : Nat} (h1 : (c₁, i) ∈ l) (h2 : (c₂, i) ∈ l) : c₁ = c₂ := by
  induction l with
  | nil => simp at h1
  | cons p t ih =>
    obtain ⟨a, b⟩ := p
    simp only [List.map_cons, List.nodup_cons] at h
    rcases List.mem_cons.mp h1 with e1 | m1
    · rcases List.mem_cons.mp h2 with e2 | m2
      · rw [Prod.mk.injEq] at e1 e2
        rw [e1.1, e2.1]
      · exfalso
        apply h.1
        have : i = b := by rw [Prod.mk.injEq] at e1; exact e1.2
        subst this
        exact List.mem_map_of_mem Prod.snd m2
    · rcases List.mem_cons.mp h2 with e2 | m2
      · exfalso
        apply h.1
        have : i = b := by rw [Prod.mk.injEq] at e2; exact e2.2
        subst this
        exact List.mem_map_of_mem Prod.snd m1
      · exact ih h.2 m1 m2

theorem branchView_store_insert (db : DB) (bid : Nat) (bs' : BranchState)
    (c : String) (hWF : WF db) (hc : c ≠ db.current) (h1 : currentId db = some bid) :
    branchView { db with store := ainsert bid bs' db.store } c = branchView db c := by
  unfold branchView
  cases hcb : alookup c db.branches with
  | none => rfl
  | some cid =>
    have hne : cid ≠ bid := by
      intro he
      subst he
      exact hc (snd_inj_of_nodup hWF (mem_of_alookup hcb) (mem_of_alookup h1))
    simp only [Option.bind_some]
    exact alookup_ainsert_ne bid cid bs' db.store hne

theorem parsePath_root : parsePath "$" = some [] := rfl

/-! ### Claims about the engine -/

/-- C1: Branch isolation: executing any primitive operation while the current
branch is `db.current` leaves the observable state of every other branch `c`
unchanged, and after switching to a freshly created branch no key, cell,
event, document, or vector collection written on any other branch is
observable. -/
theorem branch_isolation (db : DB) (op : PrimOp) (c b : String)
    (hWF : WF db) (hc : c ≠ db.current) (hb : alookup b db.branches = none) :
    branchView (applyOp db op) c = branchView db c ∧
      ∃ db₁ db₂, create_branch db b = .ok db₁ ∧ set_branch db₁ b = .ok db₂ ∧
        (∀ k, kv_get db₂ k = none) ∧ (∀ cl, state_get db₂ cl = none) ∧
        event_len db₂ = 0 ∧ (∀ k, json_get db₂ k "$" = .ok none) ∧
        vector_list_collections db₂ = [] := by
  constructor
  · rcases applyOp_shape db op with h | ⟨bid, bs', h1, h2⟩
    · rw [h]
    · rw [h2]
      exact branchView_store_insert db bid bs' c hWF hc h1
  · have hcr : create_branch db b =
        .ok { branches := (b, db.nextId) :: db.branches
              nextId := db.nextId + 1
              store := (db.nextId, BranchState.empty) :: db.store
              current := db.current } := by
      simp [create_branch, hb]
    refine ⟨{ branches := (b, db.nextId) :: db.branches
              nextId := db.nextId + 1
              store := (db.nextId, BranchState.empty) :: db.store
              current := db.current },
            { branches := (b, db.nextId) :: db.branches
              nextId := db.nextId + 1
              store := (db.nextId, BranchState.empty) :: db.store
              current := b }, hcr, ?_, ?_, ?_, ?_, ?_, ?_⟩
    · simp [set_branch, alookup]
    · intro k
      simp [kv_get, currentState, currentId, alookup, BranchState.empty]
    · intro cl
      simp [state_get, currentState, currentId, alookup, BranchState.empty]
    · simp [event_len, currentState, currentId, alookup, BranchState.empty]
    · intro k
      simp [json_get, parsePath_root, currentState, currentId, alookup,
        BranchState.empty]
    · simp [vector_list_collections, currentState, currentId, alookup,
        BranchState.empty]

/-- Witness for C1: a concrete write on `default` leaves the `other` branch's
view of a two-branch database untouched. -/
theorem branch_isolation_witness :
    WF dbW ∧ "other" ≠ dbW.current ∧ alookup "temp" dbW.branches = none ∧
      branchView (applyOp dbW (.kvPut "x" (.int 2))) "other" =
        branchView dbW "other" := by
  refine ⟨by decide, by decide, by rfl, ?_⟩
  exact (branch_isolation dbW (.kvPut "x" (.int 2)) "other" "temp"
    (by decide) (by decide) (by rfl)).1

/-- C2: State CAS semantics: the call succeeds with a fresh version exactly
when the expected version matches the stored one (`none` matching exactly a
nonexistent cell); on success the version becomes stored + 1 (or 1 on first
creation); a failed check is the `Ok(None)` success and leaves the branch's
namespace unchanged. -/
theorem state_cas_semantics (db : DB) (cell : String) (expected : Option Nat)
    (v : Value) (bid : Nat) (bs : BranchState)
    (h1 : currentId db = some bid) (h2 : alookup bid db.store = some bs) :
    ∃ db' r, state_cas db cell expected v = .ok (db', r) ∧
      (r.isSome ↔ expected = (alookup cell bs.cells).map Cell.version) ∧
      (r = none → currentState db' = currentState db ∧ db'.current = db.current) ∧
      ∀ nv, r = some nv →
        nv = (match alookup cell bs.cells with
              | some c => c.version + 1
              | none => 1) ∧
          cellOf db' cell = some ⟨v, nv⟩ := by
  rcases hc : alookup cell bs.cells with _ | cOld
  · cases expected with
    | none =>
      refine ⟨{ db with store := (ainsert bid
          { bs with cells := ainsert cell ⟨v, 1⟩ bs.cells } db.store) },
        some 1, ?_, by simp [hc], by simp, ?_⟩
      · simp [state_cas, withCurrent, h1, h2, hc]
      · intro nv hnv
        rw [Option.some.injEq] at hnv
        subst hnv
        refine ⟨by simp [hc], ?_⟩
        have h1' : alookup db.current db.branches = some bid := h1
        simp [cellOf, currentState, currentId, h1']
    | some ev =>
      refine ⟨{ db with store := ainsert bid bs db.store }, none, ?_,
        by simp [hc], ?_, by simp⟩
      · simp [state_cas, withCurrent, h1, h2, hc]
      · intro _
        refine ⟨?_, rfl⟩
        have h1' : alookup db.current db.branches = some bid := h1
        simp [currentState, currentId, h1', h2]
  · cases expected with
    | none =>
      refine ⟨{ db with store := ainsert bid bs db.store }, none, ?_,
        by simp [hc], ?_, by simp⟩
      · simp [state_cas, withCurrent, h1, h2, hc]
      · intro _
        refine ⟨?_, rfl⟩
        have h1' : alookup db.current db.branches = some bid := h1
        simp [currentState, currentId, h1', h2]
    | some ev =>
      by_cases hev : ev = cOld.version
      · subst hev
        refine ⟨{ db with store := (ainsert bid
            { bs with cells := ainsert cell ⟨v, cOld.version + 1⟩ bs.cells }
            db.store) },
          some (cOld.version + 1), ?_, by simp [hc], by simp, ?_⟩
        · simp [state_cas, withCurrent, h1, h2, hc]
        · intro nv hnv
          rw [Option.some.injEq] at hnv
          subst hnv
          refine ⟨by simp [hc], ?_⟩
          have h1' : alookup db.current db.branches = some bid := h1
          simp [cellOf, currentState, currentId, h1']
      · refine ⟨{ db with store := ainsert bid bs db.store }, none, ?_,
          by simp [hc, hev], ?_, by simp⟩
        · simp [state_cas, withCurrent, h1, h2, hc, hev]
        · intro _
          refine ⟨?_, rfl⟩
          have h1' : alookup db.current db.branches = some bid := h1
          simp [currentState, currentId, h1', h2]

/-- Witness for C2: a concrete CAS with the matching expected version on a
populated database succeeds. -/
theorem state_cas_semantics_witness :
    currentId dbW = some 0 ∧ alookup 0 dbW.store = some bsW ∧
      ∃ db' r, state_cas dbW "c" (some 1) (.int 5) = .ok (db', r) ∧ r.isSome := by
  refine ⟨rfl, rfl, ?_⟩
  obtain ⟨db', r, hr, hiff, -, -⟩ :=
    state_cas_semantics dbW "c" (some 1) (.int 5) 0 bsW rfl rfl
  exact ⟨db', r, hr, hiff.mpr (by rfl)⟩

/-- C3: Event log invariants: appending a batch of events returns the
consecutive sequence numbers following the branch's current length, so every
returned sequence exceeds all previously returned ones, sequences are never
reused, and `event_len` afterwards counts exactly the appends, regardless of
event types. -/
theorem event_log_invariants (db : DB) (l : List (String × Value)) (bid : Nat)
    (bs : BranchState) (h1 : currentId db = some bid)
    (h2 : alookup bid db.store = some bs) :
    ∃ db' seqs, appendMany db l = .ok (db', seqs) ∧
      seqs = List.range' (bs.events.length + 1) l.length ∧
      List.Pairwise (· < ·) seqs ∧
      (∀ m ∈ seqs, bs.events.length < m) ∧
      event_len db' = bs.events.length + l.length := by
  induction l generalizing db bid bs with
  | nil =>
    refine ⟨db, [], rfl, by simp, by simp, by simp, ?_⟩
    have h1' : alookup db.current db.branches = some bid := h1
    simp [event_len, currentState, currentId, h1', h2]
  | cons tp rest ih =>
    obtain ⟨t, p⟩ := tp
    have happ : event_append db t p =
        .ok ({ db with store := (ainsert bid
            { bs with events := bs.events ++ [⟨t, p⟩] } db.store) },
          bs.events.length + 1) := by
      simp [event_append, withCurrent, h1, h2]
    have h1n : currentId { db with store := (ainsert bid
        { bs with events := bs.events ++ [⟨t, p⟩] } db.store) } = some bid := h1
    have h2n : alookup bid (ainsert bid
        { bs with events := bs.events ++ [⟨t, p⟩] } db.store) =
        some { bs with events := bs.events ++ [⟨t, p⟩] } :=
      alookup_ainsert_self bid _ db.store
    obtain ⟨db', seqs, hA, hr, hp, hgt, hlen⟩ := ih _ bid _ h1n h2n
    refine ⟨db', (bs.events.length + 1) :: seqs, ?_, ?_, ?_, ?_, ?_⟩
    · simp [appendMany, happ, hA]
    · rw [hr]
      simp [List.range'_succ]
    · refine List.Pairwise.cons ?_ hp
      intro x hx
      have := hgt x hx
      simp at this
      omega
    · intro m hm
      rcases List.mem_cons.mp hm with h | h
      · omega
      · have := hgt m h
        simp at this
        omega
    · rw [hlen]
      simp
      omega

/-- Witness for C3: three appends on a branch whose log already holds one
event return the strictly increasing sequences 2, 3, 4. -/
theorem event_log_invariants_witness :
    currentId dbW = some 0 ∧ alookup 0 dbW.store = some bsW ∧
      ∃ db' seqs,
        appendMany dbW [("a", .null), ("b", .null), ("c", .null)] = .ok (db', seqs) ∧
        seqs = [2, 3, 4] ∧ event_len db' = 4 := by
  refine ⟨rfl, rfl, ?_⟩
  obtain ⟨db', seqs, hA, hr, -, -, hlen⟩ :=
    event_log_invariants dbW [("a", .null), ("b", .null), ("c", .null)] 0 bsW rfl rfl
  refine ⟨db', seqs, hA, ?_, ?_⟩
  · rw [hr]
    rfl
  · rw [hlen]
    rfl

/-- C5: Dimension validation with atomicity: a `vector_upsert` whose
embedding length differs from the collection's dimension fails with
DimensionMismatch and the database — in particular the collection's entries
and its index — is exactly as before the call. -/
theorem vector_dimension_guard (db : DB) (name key : String) (emb : List ℚ)
    (meta : Option Value) (coll : Collection)
    (h : collOf db name = some coll) (hd : emb.length ≠ coll.dimension) :
    vector_upsert db name key emb meta = .error .dimensionMismatch ∧
      applyOp db (.vecUpsert name key emb meta) = db := by
  rcases hbid : currentId db with _ | bid
  · exfalso
    simp [collOf, currentState, hbid] at h
  · rcases hbs : alookup bid db.store with _ | bs
    · exfalso
      simp [collOf, currentState, hbid, hbs] at h
    · have hcoll : alookup name bs.collections = some coll := by
        simpa [collOf, currentState, hbid, hbs] using h
      have herr : vector_upsert db name key emb meta = .error .dimensionMismatch := by
        simp [vector_upsert, withCurrent, hbid, hbs, hcoll, hd]
      exact ⟨herr, by simp [applyOp, runDB, herr]⟩

/-- Witness for C5: upserting a 3-dimensional embedding into the
2-dimensional collection `col` fails with DimensionMismatch and leaves the
database untouched. -/
theorem vector_dimension_guard_witness :
    collOf dbW "col" = some collW ∧ ([1, 2, 3] : List ℚ).length ≠ collW.dimension ∧
      vector_upsert dbW "col" "v2" [1, 2, 3] none = .error .dimensionMismatch ∧
      applyOp dbW (.vecUpsert "col" "v2" [1, 2, 3] none) = dbW := by
  refine ⟨rfl, by decide, ?_⟩
  exact vector_dimension_guard dbW "col" "v2" [1, 2, 3] none collW rfl (by decide)

/-- C6: Branch delete and recreate round trip: for a fresh name that is
neither current nor `default`, `create_branch; delete_branch; create_branch`
succeeds and the re-created branch's namespace is empty for every primitive;
moreover deleting and re-creating an existing branch carrying arbitrary data
yields an empty namespace, so any key written on the first incarnation reads
back as `none`. -/
theorem branch_delete_recreate (db : DB) (b : String)
    (hb : alookup b db.branches = none) (hdef : b ≠ "default")
    (hcur : b ≠ db.current) :
    (∃ db₁ db₂ db₃ db₄, create_branch db b = .ok db₁ ∧
        delete_branch db₁ b = .ok db₂ ∧ create_branch db₂ b = .ok db₃ ∧
        branchView db₃ b = some BranchState.empty ∧
        set_branch db₃ b = .ok db₄ ∧ ∀ k, kv_get db₄ k = none) ∧
      ∀ db₀, (alookup b db₀.branches).isSome → b ≠ db₀.current →
        ∃ db₂ db₃ db₄, delete_branch db₀ b = .ok db₂ ∧
          create_branch db₂ b = .ok db₃ ∧
          branchView db₃ b = some BranchState.empty ∧
          set_branch db₃ b = .ok db₄ ∧ ∀ k, kv_get db₄ k = none := by
  have hgen : ∀ db₀ : DB, (alookup b db₀.branches).isSome → b ≠ db₀.current →
      ∃ db₂ db₃ db₄, delete_branch db₀ b = .ok db₂ ∧
        create_branch db₂ b = .ok db₃ ∧
        branchView db₃ b = some BranchState.empty ∧
        set_branch db₃ b = .ok db₄ ∧ ∀ k, kv_get db₄ k = none := by
    intro db₀ hmem hne
    obtain ⟨bid₀, hbid⟩ := Option.isSome_iff_exists.mp hmem
    have hdel : delete_branch db₀ b =
        .ok { db₀ with branches := aerase b db₀.branches,
                       store := aerase bid₀ db₀.store } := by
      simp [delete_branch, hne, hdef, hbid]
    have hfresh : alookup b (aerase b db₀.branches) = none :=
      alookup_aerase_self b db₀.branches
    have hcr : create_branch
        { db₀ with branches := aerase b db₀.branches,
                   store := aerase bid₀ db₀.store } b =
        .ok { branches := (b, db₀.nextId) :: aerase b db₀.branches
              nextId := db₀.nextId + 1
              store := (db₀.nextId, BranchState.empty) :: aerase bid₀ db₀.store
              current := db₀.current } := by
      simp [create_branch, hfresh]
    refine ⟨_, _, { branches := (b, db₀.nextId) :: aerase b db₀.branches
                    nextId := db₀.nextId + 1
                    store := (db₀.nextId, BranchState.empty) :: aerase bid₀ db₀.store
                    current := b }, hdel, hcr, ?_, ?_, ?_⟩
    · simp [branchView, alookup]
    · simp [set_branch, alookup]
    · intro k
      simp [kv_get, currentState, currentId, alookup, BranchState.empty]
  constructor
  · have hcr : create_branch db b =
        .ok { branches := (b, db.nextId) :: db.branches
              nextId := db.nextId + 1
              store := (db.nextId, BranchState.empty) :: db.store
              current := db.current } := by
      simp [create_branch, hb]
    obtain ⟨db₂, db₃, db₄, hdel, hcr2, hview, hset, hkv⟩ :=
      hgen { branches := (b, db.nextId) :: db.branches
             nextId := db.nextId + 1
             store := (db.nextId, BranchState.empty) :: db.store
             current := db.current } (by simp [alookup]) hcur
    exact ⟨_, db₂, db₃, db₄, hcr, hdel, hcr2, hview, hset, hkv⟩
  · exact hgen

/-- Witness for C6: the full create–delete–recreate round trip on the fresh
branch name `temp`, ending with an empty read. -/
theorem branch_delete_recreate_witness :
    alookup "temp" dbW.branches = none ∧ "temp" ≠ "default" ∧
      "temp" ≠ dbW.current ∧
      ∃ db₁ db₂ db₃ db₄, create_branch dbW "temp" = .ok db₁ ∧
        delete_branch db₁ "temp" = .ok db₂ ∧ create_branch db₂ "temp" = .ok db₃ ∧
        set_branch db₃ "temp" = .ok db₄ ∧ kv_get db₄ "k" = none := by
  refine ⟨rfl, by decide, by decide, ?_⟩
  obtain ⟨db₁, db₂, db₃, db₄, hc1, hd, hc2, -, hs, hk⟩ :=
    (branch_delete_recreate dbW "temp" rfl (by decide) (by decide)).1
  exact ⟨db₁, db₂, db₃, db₄, hc1, hd, hc2, hs, hk "k"⟩

/-- C7: JSON root round trip: setting any representable value at path `$`
replaces the entire document and reading `$` back returns exactly that
value. -/
theorem json_root_roundtrip (db : DB) (k : String) (v : Value) (bid : Nat)
    (bs : BranchState) (h1 : currentId db = some bid)
    (h2 : alookup bid db.store = some bs) :
    ∃ db', json_set db k "$" v = .ok (db', ()) ∧
      json_get db' k "$" = .ok (some v) := by
  refine ⟨{ db with store := (ainsert bid
      { bs with docs := ainsert k v bs.docs } db.store) }, ?_, ?_⟩
  · simp [json_set, parsePath_root, withCurrent, h1, h2]
  · have h1' : alookup db.current db.branches = some bid := h1
    simp [json_get, parsePath_root, currentState, currentId, h1', getPath]

/-- Witness for C7: a concrete object value set at `$` reads back intact. -/
theorem json_root_roundtrip_witness :
    currentId dbW = some 0 ∧ alookup 0 dbW.store = some bsW ∧
      ∃ db', json_set dbW "doc2" "$" (.object [("a", .int 7)]) = .ok (db', ()) ∧
        json_get db' "doc2" "$" = .ok (some (.object [("a", .int 7)])) := by
  exact ⟨rfl, rfl,
    json_root_roundtrip dbW "doc2" (.object [("a", .int 7)]) 0 bsW rfl rfl⟩

/-- C8: deleting a vector collection that does not exist in the current
branch is the success `Ok(false)`, not an error, and changes nothing
observable. -/
theorem vector_delete_collection_nonexistent (db : DB) (name : String)
    (bid : Nat) (bs : BranchState) (h1 : currentId db = some bid)
    (h2 : alookup bid db.store = some bs)
    (h : alookup name bs.collections = none) :
    ∃ db', vector_delete_collection db name = .ok (db', false) ∧
      currentState db' = currentState db := by
  refine ⟨{ db with store := ainsert bid bs db.store }, ?_, ?_⟩
  · simp [vector_delete_collection, withCurrent, h1, h2, h]
  · have h1' : alookup db.current db.branches = some bid := h1
    simp [currentState, currentId, h1', h2]

/-- Witness for C8: deleting the absent collection `ghost` returns the
`Ok(false)` success. -/
theorem vector_delete_collection_nonexistent_witness :
    currentId dbW = some 0 ∧ alookup 0 dbW.store = some bsW ∧
      alookup "ghost" bsW.collections = none ∧
      ∃ db', vector_delete_collection dbW "ghost" = .ok (db', false) := by
  refine ⟨rfl, rfl, rfl, ?_⟩
  obtain ⟨db', hdel, -⟩ :=
    vector_delete_collection_nonexistent dbW "ghost" 0 bsW rfl rfl rfl
  exact ⟨db', hdel⟩

/-- C4: Vector search contract: for every collection and query,
`vector_search` returns at most `k` rows, sorted by score in non-increasing
order (most-similar first), and every returned row is one of the
collection's entries scored by the collection's metric — cosine similarity
for Cosine, the raw inner product for DotProduct, and the negated Euclidean
distance for Euclidean (see `metricScore`), so that in all three metrics a
higher score means closer. -/
theorem vector_search_contract (db : DB) (name : String) (q : List ℚ) (k : Nat) :
    match collOf db name with
    | none => vector_search db name q k = .error .notFound
    | some coll =>
      ∃ res, vector_search db name q k = .ok res ∧ res.length ≤ k ∧
        res.Pairwise (fun a b => b.2 ≤ a.2) ∧ res ⊆ scoredEntries coll q := by
  rcases h : collOf db name with _ | coll
  · simp [vector_search, h]
  · refine ⟨(List.insertionSort (fun a b => b.2 ≤ a.2) (scoredEntries coll q)).take k,
      by simp [vector_search, h], ?_, ?_, ?_⟩
    · exact List.length_take_le _ _
    · have hs : List.Sorted (fun a b : String × ℝ => b.2 ≤ a.2)
          (List.insertionSort (fun a b => b.2 ≤ a.2) (scoredEntries coll q)) := by
        haveI instTot : IsTotal (String × ℝ) (fun a b => b.2 ≤ a.2) :=
          ⟨fun a b => le_total b.2 a.2⟩
        haveI instTrans : IsTrans (String × ℝ) (fun a b => b.2 ≤ a.2) :=
          ⟨fun a b c hab hbc => le_trans hbc hab⟩
        exact List.sorted_insertionSort _ _
      exact List.Pairwise.sublist (List.take_sublist _ _) hs
    · intro p hp
      have h1 : p ∈ List.insertionSort (fun a b : String × ℝ => b.2 ≤ a.2)
          (scoredEntries coll q) := List.mem_of_mem_take hp
      exact (List.mem_insertionSort _).mp h1

/-- C9: LDBC BFS consistency: on the canonical 10-vertex, 17-edge directed
example graph, the BFS of `benches/graph/ldbc.rs` from source vertex 1
(petgraph node index 0; vertex `i` is index `i - 1`) under undirected
traversal assigns depths 0, 1, 1, 2, 3, 3, 4, 4, 5, 5 to vertices 1
through 10. -/
theorem ldbc_bfs_consistency :
    exampleDataset.vertices.length = 10 ∧ exampleDataset.edges.length = 17 ∧
      idIndex exampleDataset.vertices 1 = some 0 ∧
      alookup 0 (petgraph_bfs (to_petgraph exampleDataset) 0) = some 0 ∧
      alookup 1 (petgraph_bfs (to_petgraph exampleDataset) 0) = some 1 ∧
      alookup 2 (petgraph_bfs (to_petgraph exampleDataset) 0) = some 1 ∧
      alookup 3 (petgraph_bfs (to_petgraph exampleDataset) 0) = some 2 ∧
      alookup 4 (petgraph_bfs (to_petgraph exampleDataset) 0) = some 3 ∧
      alookup 5 (petgraph_bfs (to_petgraph exampleDataset) 0) = some 3 ∧
      alookup 6 (petgraph_bfs (to_petgraph exampleDataset) 0) = some 4 ∧
      alookup 7 (petgraph_bfs (to_petgraph exampleDataset) 0) = some 4 ∧
      alookup 8 (petgraph_bfs (to_petgraph exampleDataset) 0) = some 5 ∧
      alookup 9 (petgraph_bfs (to_petgraph exampleDataset) 0) = some 5 := by
  decide

/-! ### BFS correctness lemmas -/

theorem alookup_isSome_of_mem {κ α : Type} [DecidableEq κ] {k : κ} {v : α}
    {l : List (κ × α)} (h : (k, v) ∈ l) : (alookup k l).isSome := by
  induction l with
  | nil => simp at h
  | cons p t ih =>
    obtain ⟨a, b⟩ := p
    by_cases hak : a = k
    · simp [alookup, hak]
    · rcases List.mem_cons.mp h with he | hm
      · rw [Prod.mk.injEq] at he
        exact absurd he.1.symm hak
      · simpa [alookup, hak] using ih hm

theorem alookup_const_map {l : List Nat} {v : Nat} (d : Nat) (hv : v ∈ l) :
    alookup v (l.map fun x => (x, d)) = some d := by
  induction l with
  | nil => simp at hv
  | cons a t ih =>
    by_cases hav : a = v
    · simp [alookup, hav]
    · rcases List.mem_cons.mp hv with he | hm
      · exact absurd he.symm hav
      · simpa [alookup, hav] using ih hm

theorem alookup_const_map_none {l : List Nat} {v : Nat} (d : Nat) (hv : v ∉ l) :
    alookup v (l.map fun x => (x, d)) = none := by
  refine alookup_eq_none_of_not_mem ?_
  intro w hw
  obtain ⟨x, hx, he⟩ := List.mem_map.mp hw
  rw [Prod.mk.injEq] at he
  exact hv (he.1 ▸ hx)

theorem mem_neighbors (g : LGraph) (v nb : Nat) :
    nb ∈ g.neighbors v ↔ adjP g v nb := by
  simp only [LGraph.neighbors, List.mem_append, List.mem_map, List.mem_filter, adjP]
  constructor
  · rintro (⟨⟨a, b⟩, ⟨he, hv⟩, rfl⟩ | ⟨⟨a, b⟩, ⟨he, hv⟩, rfl⟩)
    · simp at hv
      subst hv
      exact Or.inl he
    · simp at hv
      subst hv
      exact Or.inr he
  · rintro (h | h)
    · exact Or.inl ⟨(v, nb), ⟨h, by simp⟩, rfl⟩
    · exact Or.inr ⟨(nb, v), ⟨h, by simp⟩, rfl⟩

theorem reach_mem_of_closed (g : LGraph) (s : Nat) (dep : List (Nat × Nat))
    (hs : (alookup s dep).isSome)
    (hcl : ∀ u, (alookup u dep).isSome → ∀ w, adjP g u w → (alookup w dep).isSome) :
    ∀ m w, ReachN g s w m → (alookup w dep).isSome := by
  intro m w h
  induction h with
  | refl => exact hs
  | step hr hadj ih => exact hcl _ ih _ hadj

theorem exists_isBfsDepth (g : LGraph) (s v : Nat) :
    ∀ m, ReachN g s v m → ∃ d, IsBfsDepth g s v d := by
  intro m
  induction m using Nat.strong_induction_on with
  | _ m ih =>
    intro h
    by_cases hmin : ∀ m', ReachN g s v m' → m ≤ m'
    · exact ⟨m, h, hmin⟩
    · push_neg at hmin
      obtain ⟨m', hm', hlt⟩ := hmin
      exact ih m' hlt hm'

theorem length_le_of_nodup_lt {l : List Nat} {n : Nat} (hnd : l.Nodup)
    (hlt : ∀ x ∈ l, x < n) : l.length ≤ n := by
  classical
  have hsub : l.toFinset ⊆ Finset.range n := by
    intro x hx
    exact Finset.mem_range.mpr (hlt x (List.mem_toFinset.mp hx))
  have hcard := Finset.card_le_card hsub
  rwa [List.toFinset_card_of_nodup hnd, Finset.card_range] at hcard

theorem bfsFold_structure (g : LGraph) (d : Nat) :
    ∀ (ns q : List Nat) (dep : List (Nat × Nat)),
      ∃ new : List Nat,
        ns.foldl (bfsStep d) (q, dep) =
          (q ++ new, (new.reverse.map fun v => (v, d + 1)) ++ dep) ∧
        new.Nodup ∧ (∀ v ∈ new, v ∈ ns ∧ alookup v dep = none) ∧
        (∀ nb ∈ ns, alookup nb dep = none → nb ∈ new) := by
  intro ns
  induction ns with
  | nil =>
    intro q dep
    exact ⟨[], by simp, List.nodup_nil, by simp, by simp⟩
  | cons nb rest ih =>
    intro q dep
    by_cases hnb : (alookup nb dep).isSome
    · obtain ⟨new, heq, hnd, hmem, hcov⟩ := ih q dep
      refine ⟨new, ?_, hnd, ?_, ?_⟩
      · simpa [bfsStep, hnb] using heq
      · intro v hv
        exact ⟨List.mem_cons_of_mem _ (hmem v hv).1, (hmem v hv).2⟩
      · intro x hx hnone
        rcases List.mem_cons.mp hx with he | hx'
        · subst he
          rw [hnone] at hnb
          simp at hnb
        · exact hcov x hx' hnone
    · rw [Option.not_isSome_iff_eq_none] at hnb
      obtain ⟨new, heq, hnd, hmem, hcov⟩ := ih (q ++ [nb]) ((nb, d + 1) :: dep)
      refine ⟨nb :: new, ?_, ?_, ?_, ?_⟩
      · have hstep : (nb :: rest).foldl (bfsStep d) (q, dep) =
            rest.foldl (bfsStep d) (q ++ [nb], (nb, d + 1) :: dep) := by
          simp [bfsStep, hnb]
        rw [hstep, heq]
        simp
      · refine List.nodup_cons.mpr ⟨?_, hnd⟩
        intro hmemnb
        have := (hmem nb hmemnb).2
        simp [alookup] at this
      · intro v hv
        rcases List.mem_cons.mp hv with he | hv'
        · subst he
          exact ⟨List.mem_cons_self _ _, hnb⟩
        · obtain ⟨hin, hlk⟩ := hmem v hv'
          refine ⟨List.mem_cons_of_mem _ hin, ?_⟩
          by_cases hveq : nb = v
          · subst hveq
            simp [alookup] at hlk
          · simpa [alookup, hveq] using hlk
      · intro x hx hnone
        rcases List.mem_cons.mp hx with he | hx'
        · subst he
          exact List.mem_cons_self _ _
        · by_cases hxeq : nb = x
          · subst hxeq
            exact List.mem_cons_self _ _
          · refine List.mem_cons_of_mem _ (hcov x hx' ?_)
            simpa [alookup, hxeq] using hnone


theorem bfs_step_inv (g : LGraph) (s : Nat)
    (hE : ∀ e ∈ g.edges, e.1 < g.n ∧ e.2 < g.n)
    (node : Nat) (rest : List Nat) (dep : List (Nat × Nat)) (d : Nat)
    (hd : alookup node dep = some d)
    (hinv : BfsInv g s (node :: rest) dep) :
    ∃ q' dep',
      (g.neighbors node).foldl (bfsStep d) (rest, dep) = (q', dep') ∧
      BfsInv g s q' dep' ∧
      2 * (g.n - dep'.length) + q'.length + 1 ≤
        2 * (g.n - dep.length) + (node :: rest).length := by
  obtain ⟨new, hfold, hnew_nd, hnew_mem, hnew_cov⟩ :=
    bfsFold_structure g d (g.neighbors node) rest dep
  have hnew_adj : ∀ v ∈ new, adjP g node v :=
    fun v hv => (mem_neighbors g node v).mp (hnew_mem v hv).1
  have hnew_none : ∀ v ∈ new, alookup v dep = none :=
    fun v hv => (hnew_mem v hv).2
  have hpres : ∀ x y, alookup x dep = some y →
      alookup x ((new.reverse.map fun v => (v, d + 1)) ++ dep) = some y := by
    intro x y hxy
    have hxnew : x ∉ new := by
      intro hmem
      rw [hnew_none x hmem] at hxy
      cases hxy
    have hmap : alookup x (new.reverse.map fun v => (v, d + 1)) = none :=
      alookup_const_map_none (d + 1) (by simpa using hxnew)
    rw [alookup_append, hmap]
    exact hxy
  have hnewlook : ∀ v ∈ new,
      alookup v ((new.reverse.map fun x => (x, d + 1)) ++ dep) = some (d + 1) := by
    intro v hv
    have hmap : alookup v (new.reverse.map fun x => (x, d + 1)) = some (d + 1) :=
      alookup_const_map (d + 1) (List.mem_reverse.mpr hv)
    rw [alookup_append, hmap]
  have hnone' : ∀ x,
      alookup x ((new.reverse.map fun v => (v, d + 1)) ++ dep) = none →
      alookup x dep = none ∧ x ∉ new := by
    intro x hx
    rw [alookup_append] at hx
    rcases hmap : alookup x (new.reverse.map fun v => (v, d + 1)) with _ | y
    · rw [hmap] at hx
      refine ⟨hx, ?_⟩
      intro hmem
      rw [alookup_const_map (d + 1) (List.mem_reverse.mpr hmem)] at hmap
      cases hmap
    · rw [hmap] at hx
      cases hx
  have hmem' : ∀ p, p ∈ (new.reverse.map fun v => (v, d + 1)) ++ dep →
      p ∈ dep ∨ (p.2 = d + 1 ∧ p.1 ∈ new ∧ alookup p.1 dep = none) := by
    intro p hp
    rcases List.mem_append.mp hp with hp1 | hp2
    · right
      obtain ⟨x, hx, he⟩ := List.mem_map.mp hp1
      have hxnew : x ∈ new := List.mem_reverse.mp hx
      rw [← he]
      exact ⟨rfl, hxnew, hnew_none x hxnew⟩
    · exact Or.inl hp2
  have hdexact_node : IsBfsDepth g s node d :=
    hinv.depths_exact (node, d) (mem_of_alookup hd)
  have hnew_exact : ∀ v ∈ new, IsBfsDepth g s v (d + 1) := by
    intro v hv
    refine ⟨.step hdexact_node.1 (hnew_adj v hv), ?_⟩
    intro m hm
    obtain ⟨v₀, d₀, hhead, hlook, hlt⟩ := hinv.frontier v (hnew_none v hv) m hm
    have hv₀ : node = v₀ := by simpa using hhead
    subst hv₀
    rw [hd] at hlook
    injection hlook with he
    omega
  have hkeys_lt : ∀ p ∈ (new.reverse.map fun v => (v, d + 1)) ++ dep,
      p.1 < g.n := by
    intro p hp
    rcases hmem' p hp with hpd | hpn
    · exact hinv.keys_lt p hpd
    · rcases hnew_adj p.1 hpn.2.1 with h | h
      · exact (hE _ h).2
      · exact (hE _ h).1
  have hkeys_nd :
      (((new.reverse.map fun v => (v, d + 1)) ++ dep).map Prod.fst).Nodup := by
    have hcomp : (Prod.fst ∘ fun v : Nat => (v, d + 1)) = id := rfl
    have hshape : ((new.reverse.map fun v => (v, d + 1)) ++ dep).map Prod.fst =
        new.reverse ++ dep.map Prod.fst := by
      rw [List.map_append, List.map_map, hcomp, List.map_id]
    rw [hshape]
    refine List.nodup_append.mpr
      ⟨List.nodup_reverse.mpr hnew_nd, hinv.keys_nodup, ?_⟩
    intro x hx1 hx2
    have hxnew : x ∈ new := List.mem_reverse.mp hx1
    obtain ⟨⟨a, b⟩, hpmem, he⟩ := List.mem_map.mp hx2
    subst he
    have := alookup_isSome_of_mem hpmem
    rw [hnew_none _ hxnew] at this
    cases this
  have hsrc : alookup s ((new.reverse.map fun v => (v, d + 1)) ++ dep) = some 0 :=
    hpres s 0 hinv.src_mem
  have hexact : ∀ p ∈ (new.reverse.map fun v => (v, d + 1)) ++ dep,
      IsBfsDepth g s p.1 p.2 := by
    intro p hp
    rcases hmem' p hp with hpd | hpn
    · exact hinv.depths_exact p hpd
    · have := hnew_exact p.1 hpn.2.1
      rw [hpn.1]
      exact this
  have hqrec : ∀ v ∈ rest ++ new,
      ∃ dv, alookup v ((new.reverse.map fun x => (x, d + 1)) ++ dep) = some dv := by
    intro v hv
    rcases List.mem_append.mp hv with hr | hn
    · obtain ⟨dv, hdv⟩ := hinv.q_recorded v (List.mem_cons_of_mem _ hr)
      exact ⟨dv, hpres v dv hdv⟩
    · exact ⟨d + 1, hnewlook v hn⟩
  have hexp : ∀ p ∈ (new.reverse.map fun v => (v, d + 1)) ++ dep,
      p.1 ∈ rest ++ new ∨ ∀ w, adjP g p.1 w →
        ∃ dw, alookup w ((new.reverse.map fun x => (x, d + 1)) ++ dep) = some dw := by
    intro p hp
    rcases hmem' p hp with hpd | hpn
    · rcases hinv.expanded p hpd with hq | hfull
      · rcases List.mem_cons.mp hq with he | hr
        · right
          intro w hw
          have hwnb : w ∈ g.neighbors node :=
            (mem_neighbors g node w).mpr (he ▸ hw)
          rcases hlkw : alookup w dep with _ | y
          · exact ⟨d + 1, hnewlook w (hnew_cov w hwnb hlkw)⟩
          · exact ⟨y, hpres w y hlkw⟩
        · exact Or.inl (List.mem_append.mpr (Or.inl hr))
      · right
        intro w hw
        obtain ⟨dw, hdw⟩ := hfull w hw
        exact ⟨dw, hpres w dw hdw⟩
    · exact Or.inl (List.mem_append.mpr (Or.inr hpn.2.1))
  obtain ⟨lo, A, B, hqAB, hA, hB⟩ := hinv.levels
  have hlevels_split :
      (∃ lo' A' B', rest ++ new = A' ++ B' ∧
        (∀ v ∈ A', alookup v ((new.reverse.map fun x => (x, d + 1)) ++ dep) =
          some lo') ∧
        (∀ v ∈ B', alookup v ((new.reverse.map fun x => (x, d + 1)) ++ dep) =
          some (lo' + 1))) ∧
      ((∃ h₁ d₁, (rest ++ new).head? = some h₁ ∧
          alookup h₁ ((new.reverse.map fun x => (x, d + 1)) ++ dep) = some d₁ ∧
          d₁ ≤ d) ∨
        (∀ v ∈ rest ++ new,
          alookup v ((new.reverse.map fun x => (x, d + 1)) ++ dep) =
            some (d + 1))) := by
    rcases A with _ | ⟨a, A'⟩
    · have hB' : B = node :: rest := by simpa using hqAB.symm
      have hnodeB : node ∈ B := by
        rw [hB']
        exact List.mem_cons_self _ _
      have hdlo : d = lo + 1 := by
        have := hB node hnodeB
        rw [hd] at this
        exact Option.some.inj this
      constructor
      · refine ⟨lo + 1, rest, new, rfl, ?_, ?_⟩
        · intro v hv
          have hvB : v ∈ B := by
            rw [hB']
            exact List.mem_cons_of_mem _ hv
          exact hpres v (lo + 1) (hB v hvB)
        · intro v hv
          have h2 : d + 1 = lo + 1 + 1 := by omega
          rw [← h2]
          exact hnewlook v hv
      · rcases hrest : rest with _ | ⟨r, rest'⟩
        · right
          intro v hv
          simp [hrest] at hv
          exact hnewlook v hv
        · left
          have hrB : r ∈ B := by
            rw [hB', hrest]
            exact List.mem_cons_of_mem _ (List.mem_cons_self _ _)
          refine ⟨r, lo + 1, by simp [hrest], hpres r (lo + 1) (hB r hrB), ?_⟩
          omega
    · have hqinj := List.cons.injEq node rest a (A' ++ B) ▸ hqAB
      have hnode_a : node = a := by
        have := hqAB
        rw [List.cons_append] at this
        exact (List.cons.inj this).1
      have hrest : rest = A' ++ B := by
        have := hqAB
        rw [List.cons_append] at this
        exact (List.cons.inj this).2
      have hdlo : d = lo := by
        have := hA a (List.mem_cons_self _ _)
        rw [← hnode_a, hd] at this
        exact Option.some.inj this
      constructor
      · refine ⟨lo, A', B ++ new, by rw [hrest, List.append_assoc], ?_, ?_⟩
        · intro v hv
          exact hpres v lo (hA v (List.mem_cons_of_mem _ hv))
        · intro v hv
          rcases List.mem_append.mp hv with hvB | hvn
          · exact hpres v (lo + 1) (hB v hvB)
          · have h2 : d + 1 = lo + 1 := by omega
            rw [← h2]
            exact hnewlook v hvn
      · rcases hA' : A' with _ | ⟨a', A''⟩
        · right
          intro v hv
          rcases List.mem_append.mp hv with hvr | hvn
          · rw [hrest, hA'] at hvr
            simp at hvr
            have h3 := hpres v (lo + 1) (hB v hvr)
            rw [(show lo + 1 = d + 1 by omega)] at h3
            exact h3
          · exact hnewlook v hvn
        · left
          have ha'A : a' ∈ a :: A' := by
            rw [hA']
            exact List.mem_cons_of_mem _ (List.mem_cons_self _ _)
          refine ⟨a', lo, ?_, hpres a' lo (hA a' ha'A), le_of_eq hdlo.symm⟩
          rw [hrest, hA']
          simp
  obtain ⟨hlevels, hsplit⟩ := hlevels_split
  have hfrontier : ∀ w,
      alookup w ((new.reverse.map fun x => (x, d + 1)) ++ dep) = none →
      ∀ m, ReachN g s w m →
        ∃ v₀ d₀, (rest ++ new).head? = some v₀ ∧
          alookup v₀ ((new.reverse.map fun x => (x, d + 1)) ++ dep) = some d₀ ∧
          d₀ < m := by
    intro w hw m hm
    obtain ⟨hwdep, hwnew⟩ := hnone' w hw
    have hwnbr : w ∉ g.neighbors node := by
      intro hmem
      exact hwnew (hnew_cov w hmem hwdep)
    have hnotadj : ¬ adjP g node w :=
      fun h => hwnbr ((mem_neighbors g node w).mpr h)
    obtain ⟨v₀, d₀, hhead, hlook₀, hlt₀⟩ := hinv.frontier w hwdep m hm
    have hv₀ : node = v₀ := by simpa using hhead
    subst hv₀
    rw [hd] at hlook₀
    injection hlook₀ with hd₀
    subst hd₀
    rcases hq' : rest ++ new with _ | ⟨h₀, t₀⟩
    · exfalso
      have hrestnil : rest = [] := (List.append_eq_nil.mp hq').1
      have hnewnil : new = [] := (List.append_eq_nil.mp hq').2
      have hcl : ∀ u,
          (alookup u ((new.reverse.map fun x => (x, d + 1)) ++ dep)).isSome →
          ∀ w', adjP g u w' →
            (alookup w' ((new.reverse.map fun x => (x, d + 1)) ++ dep)).isSome := by
        intro u hu w' hadj
        obtain ⟨du, hdu⟩ := Option.isSome_iff_exists.mp hu
        rcases hexp (u, du) (mem_of_alookup hdu) with hq | hfull
        · rw [hrestnil, hnewnil] at hq
          simp at hq
        · obtain ⟨dw', hdw'⟩ := hfull w' hadj
          rw [hdw']
          rfl
      have := reach_mem_of_closed g s _ (by rw [hsrc]; rfl) hcl m w hm
      rw [hw] at this
      cases this
    · rcases hsplit with ⟨h₁, d₁, hh₁, hlk₁, hle₁⟩ | hall
      · rw [hq'] at hh₁
        exact ⟨h₁, d₁, hh₁, hlk₁, lt_of_le_of_lt hle₁ hlt₀⟩
      · have hh₀mem : h₀ ∈ rest ++ new := by
          rw [hq']
          exact List.mem_cons_self _ _
        refine ⟨h₀, d + 1, rfl, hall h₀ hh₀mem, ?_⟩
        rcases Nat.lt_or_ge (d + 1) m with hgt | hge
        · exact hgt
        · exfalso
          have hmeq : m = d + 1 := by omega
          subst hmeq
          cases hm with
          | step hp hadj =>
            rename_i u
            rcases hlku : alookup u dep with _ | du
            · obtain ⟨v₁, d₁, hh₁, hl₁, hlt₁⟩ := hinv.frontier u hlku _ hp
              have hv₁ : node = v₁ := by simpa using hh₁
              subst hv₁
              rw [hd] at hl₁
              injection hl₁ with he
              omega
            · have hexu := hinv.depths_exact (u, du) (mem_of_alookup hlku)
              have hdu_le : du ≤ d := hexu.2 _ hp
              have hlku' :
                  alookup u ((new.reverse.map fun x => (x, d + 1)) ++ dep) =
                    some du := hpres u du hlku
              have hu_notq' : u ∉ rest ++ new := by
                intro hmm
                have := hall u hmm
                rw [hlku'] at this
                injection this with he
                omega
              rcases hinv.expanded (u, du) (mem_of_alookup hlku) with huq | hufull
              · rcases List.mem_cons.mp huq with he | hr
                · have he' : u = node := he
                  rw [he'] at hadj
                  exact hnotadj hadj
                · exact hu_notq' (List.mem_append.mpr (Or.inl hr))
              · obtain ⟨dw, hdw⟩ := hufull w hadj
                rw [hwdep] at hdw
                cases hdw
  have hlen_le : ((new.reverse.map fun v => (v, d + 1)) ++ dep).length ≤ g.n := by
    have hlt : ∀ x ∈ ((new.reverse.map fun v => (v, d + 1)) ++ dep).map Prod.fst,
        x < g.n := by
      intro x hx
      obtain ⟨p, hp, he⟩ := List.mem_map.mp hx
      exact he ▸ hkeys_lt p hp
    have := length_le_of_nodup_lt hkeys_nd hlt
    rwa [List.length_map] at this
  refine ⟨rest ++ new, (new.reverse.map fun v => (v, d + 1)) ++ dep, hfold,
    { keys_lt := hkeys_lt, keys_nodup := hkeys_nd, src_mem := hsrc,
      depths_exact := hexact, q_recorded := hqrec, expanded := hexp,
      levels := hlevels, frontier := hfrontier }, ?_⟩
  have h1 : ((new.reverse.map fun v => (v, d + 1)) ++ dep).length =
      new.length + dep.length := by
    simp
  have h2 : (rest ++ new).length = rest.length + new.length := by
    simp
  rw [h1] at hlen_le ⊢
  rw [h2]
  simp only [List.length_cons]
  omega

theorem bfsAux_inv (g : LGraph) (s : Nat)
    (hE : ∀ e ∈ g.edges, e.1 < g.n ∧ e.2 < g.n) :
    ∀ (fuel : Nat) (q : List Nat) (dep : List (Nat × Nat)), BfsInv g s q dep →
      2 * (g.n - dep.length) + q.length ≤ fuel →
      BfsInv g s [] (bfsAux g fuel q dep) := by
  intro fuel
  induction fuel with
  | zero =>
    intro q dep hinv hm
    have hq : q = [] := List.length_eq_zero.mp (by omega)
    subst hq
    exact hinv
  | succ fuel ih =>
    intro q dep hinv hm
    cases q with
    | nil => exact hinv
    | cons node rest =>
      obtain ⟨d, hd⟩ := hinv.q_recorded node (List.mem_cons_self _ _)
      obtain ⟨q', dep', hfold, hinv', hdec⟩ :=
        bfs_step_inv g s hE node rest dep d hd hinv
      have hstep : bfsAux g (fuel + 1) (node :: rest) dep = bfsAux g fuel q' dep' := by
        have hgetD : (alookup node dep).getD 0 = d := by
          rw [hd]
          rfl
        simp only [bfsAux, hgetD, hfold]
      rw [hstep]
      exact ih q' dep' hinv' (by omega)

theorem bfsInv_init (g : LGraph) (s : Nat) (hs : s < g.n) :
    BfsInv g s [s] [(s, 0)] := by
  refine { keys_lt := ?_, keys_nodup := ?_, src_mem := ?_, depths_exact := ?_,
           q_recorded := ?_, expanded := ?_, levels := ?_, frontier := ?_ }
  · intro p hp
    simp at hp
    rw [hp]
    exact hs
  · simp
  · simp [alookup]
  · intro p hp
    simp at hp
    rw [hp]
    exact ⟨.refl, fun m _ => Nat.zero_le m⟩
  · intro v hv
    simp at hv
    subst hv
    exact ⟨0, by simp [alookup]⟩
  · intro p hp
    simp at hp
    left
    rw [hp]
    exact List.mem_singleton.mpr rfl
  · exact ⟨0, [s], [], rfl, by simp [alookup], by simp⟩
  · intro w hw m hr
    refine ⟨s, 0, rfl, by simp [alookup], ?_⟩
    cases hr with
    | refl => simp [alookup] at hw
    | step hp hadj => omega

/-- C10: BFS correctness: for every finite undirected graph (`n` petgraph
nodes, edges between existing nodes) and every source node in it,
`petgraph_bfs` returns a map whose keys are exactly the nodes reachable from
the source, the source is mapped to depth 0, every other reachable node is
mapped to the length of a shortest path from the source to it, and
unreachable nodes are absent from the map. -/
theorem petgraph_bfs_spec (g : LGraph) (s : Nat) (hs : s < g.n)
    (hE : ∀ e ∈ g.edges, e.1 < g.n ∧ e.2 < g.n) :
    alookup s (petgraph_bfs g s) = some 0 ∧
      (∀ v d, alookup v (petgraph_bfs g s) = some d ↔ IsBfsDepth g s v d) ∧
      (∀ v, alookup v (petgraph_bfs g s) = none ↔ ¬ ∃ m, ReachN g s v m) := by
  have hn1 : 1 ≤ g.n := Nat.one_le_iff_ne_zero.mpr (by omega)
  have hfin : BfsInv g s [] (petgraph_bfs g s) := by
    have hm : 2 * (g.n - ([(s, 0)] : List (Nat × Nat)).length) +
        ([s] : List Nat).length ≤ 2 * g.n + 1 := by
      simp only [List.length_singleton]
      omega
    exact bfsAux_inv g s hE (2 * g.n + 1) [s] [(s, 0)] (bfsInv_init g s hs) hm
  have hcl : ∀ u, (alookup u (petgraph_bfs g s)).isSome →
      ∀ w, adjP g u w → (alookup w (petgraph_bfs g s)).isSome := by
    intro u hu w hadj
    obtain ⟨du, hdu⟩ := Option.isSome_iff_exists.mp hu
    rcases hfin.expanded (u, du) (mem_of_alookup hdu) with h | h
    · simp at h
    · obtain ⟨dw, hdw⟩ := h w hadj
      rw [hdw]
      rfl
  have hreach : ∀ m w, ReachN g s w m → (alookup w (petgraph_bfs g s)).isSome :=
    reach_mem_of_closed g s _ (by rw [hfin.src_mem]; rfl) hcl
  refine ⟨hfin.src_mem, ?_, ?_⟩
  · intro v d
    constructor
    · intro h
      exact hfin.depths_exact (v, d) (mem_of_alookup h)
    · rintro ⟨hr, hmin⟩
      obtain ⟨d₀, hd₀⟩ := Option.isSome_iff_exists.mp (hreach d v hr)
      have hex := hfin.depths_exact (v, d₀) (mem_of_alookup hd₀)
      have he : d₀ = d := le_antisymm (hex.2 d hr) (hmin d₀ hex.1)
      rw [hd₀, he]
  · intro v
    constructor
    · rintro h ⟨m, hm'⟩
      have := hreach m v hm'
      rw [h] at this
      cases this
    · intro h
      cases hlk : alookup v (petgraph_bfs g s) with
      | none => rfl
      | some d =>
        exact absurd ⟨d, (hfin.depths_exact (v, d) (mem_of_alookup hlk)).1⟩ h

/-- Witness for C10: the two-node path graph, BFS from node 0: the source
gets depth 0 and node 1 carries the shortest-path characterization at
depth 1. -/
theorem petgraph_bfs_spec_witness :
    0 < gW.n ∧
      alookup 0 (petgraph_bfs gW 0) = some 0 ∧
      (alookup 1 (petgraph_bfs gW 0) = some 1 ↔ IsBfsDepth gW 0 1 1) := by
  refine ⟨by decide, ?_, ?_⟩
  · exact (petgraph_bfs_spec gW 0 (by decide) (by decide)).1
  · exact (petgraph_bfs_spec gW 0 (by decide) (by decide)).2.1 1 1
